import Mathlib

/-!
Verification of the `sandman2` `Model` mixin (`src/sandman2/model.py`).

The Python class `Model` is a mixin over an ORM-mapped table.  We embed it
shallowly:

* a `Column` carries the metadata the code reads: its `name`, `nullable`
  flag and `primary_key` flag;
* a `Table` is the declaration-ordered list of its columns
  (`__table__.columns`); `__table__.primary_key.columns` is the
  declaration-ordered sub-list of columns flagged as primary key;
* Python attribute values are the inductive `Value`; a `Decimal` carries
  its exact mantissa/scale representation, a `float` obtained from one
  carries the same payload, and the lossy IEEE rounding of
  `float(Decimal(...))` is abstracted as the identity on that payload
  (no claim depends on rounding);
* an `Instance` packages the class-level data (`__url__`), the table
  metadata, the instance attribute dictionary (an association list), the
  current values of the ORM relationships (`inspect(cls).relationships`
  paired with `getattr(self, rel.key)`; `none` models Python `None`),
  and the set of attribute names for which `setattr` raises (externally
  owned descriptors; plain attributes never raise);
* fallible code returns `Option` (a `none` models the propagated Python
  exception), and mutation is state passing: `update` returns the
  mutated instance together with `some name` when `setattr name` raised
  mid-loop.
-/

namespace Sandman2

/-- A fixed-point decimal as `decimal.Decimal` stores it: the value is
`mantissa / 10 ^ scale` (so `Decimal "3.14"` is `⟨314, 2⟩`). -/
structure Decimal : Type where
  mantissa : Int
  scale : Nat
  deriving DecidableEq, Repr

/-- Python attribute values as far as the mixin observes them.  A `vfloat`
produced from a `Decimal` keeps the exact payload: the IEEE rounding done
by `float(...)` is abstracted (no claim depends on it). -/
inductive Value : Type where
  | vnone : Value
  | vint (n : Int) : Value
  | vstr (s : String) : Value
  | vdecimal (d : Decimal) : Value
  | vfloat (d : Decimal) : Value
  deriving DecidableEq, Repr

/-- Column metadata: `column.name`, `column.nullable`, `column.primary_key`. -/
structure Column : Type where
  name : String
  nullable : Bool
  primary_key : Bool
  deriving DecidableEq, Repr

/-- Table metadata: `__table__.columns` in declaration order. -/
structure Table : Type where
  columns : List Column
  deriving DecidableEq, Repr

/-- The collection `__table__.primary_key.columns`: the primary-key flagged
columns, in declaration order. -/
def Table.primaryKeyColumns (t : Table) : List Column :=
  t.columns.filter (fun c => c.primary_key)

/-- Class-level state of a generated resource class: `__url__`
(`none` when the external generator never set it). -/
structure ModelClass : Type where
  url : Option String
  deriving DecidableEq, Repr

/-- One mapped instance: its class, its table metadata, its attribute
dictionary, the current value of each declared relationship
(key paired with the related object, `none` for Python `None`), and the
attribute names whose assignment raises. -/
inductive Instance : Type where
  | mk (cls : ModelClass) (table : Table) (attrs : List (String × Value))
      (rels : List (String × Option Instance)) (invalidAttrs : List String)

def Instance.cls : Instance → ModelClass
  | .mk c _ _ _ _ => c

def Instance.table : Instance → Table
  | .mk _ t _ _ _ => t

def Instance.attrs : Instance → List (String × Value)
  | .mk _ _ a _ _ => a

def Instance.rels : Instance → List (String × Option Instance)
  | .mk _ _ _ r _ => r

def Instance.invalidAttrs : Instance → List String
  | .mk _ _ _ _ i => i

/-- Dictionary lookup in an association list (first binding wins, as in a
Python dict, whose keys are unique). -/
def dlookup {β : Type} (k : String) : List (String × β) → Option β
  | [] => none
  | (k2, v) :: rest => if k2 = k then some v else dlookup k rest

/-- Dictionary assignment `d[k] = v`: replaces the value of an existing
binding in place, otherwise appends the new binding (Python dict insertion
order). -/
def dinsert {β : Type} : List (String × β) → String → β → List (String × β)
  | [], k, v => [(k, v)]
  | (k2, v2) :: rest, k, v =>
      if k2 = k then (k2, v) :: rest else (k2, v2) :: dinsert rest k v

/-- The keys of an association list, in order. -/
def dkeys {β : Type} (l : List (String × β)) : List String :=
  l.map Prod.fst

/-- Python `getattr(self, name)` restricted to column-like attributes:
`none` models the `AttributeError` for a missing attribute. -/
def pyGetattr (self : Instance) (name : String) : Option Value :=
  dlookup name self.attrs

/-- Python `setattr(self, name, value)` in the non-raising case: mutates
the attribute dictionary, leaving class, table, relationships and the
raising-attribute set unchanged. -/
def pySetattr (self : Instance) (name : String) (value : Value) : Instance :=
  .mk self.cls self.table (dinsert self.attrs name value) self.rels self.invalidAttrs

/-- Python `str` on the values a primary key takes in the claims; the
rendering of non-integer numeric values is abstracted by `toString` of the
rational payload (no claim exercises it). -/
def pyStr : Value → String
  | .vnone => "None"
  | .vint n => toString n
  | .vstr s => s
  | .vdecimal d => toString d.mantissa ++ "e-" ++ toString d.scale
  | .vfloat d => toString d.mantissa ++ "e-" ++ toString d.scale

/-- Substring test on character lists: `needle` occurs inside `hay`. -/
def listContainsSub (needle : List Char) : List Char → Bool
  | [] => needle.isEmpty
  | c :: rest => needle.isPrefixOf (c :: rest) || listContainsSub needle rest

/-- Python `needle in hay` on strings. -/
def strContains (needle hay : String) : Bool :=
  listContainsSub needle.data hay.data

namespace Model

/-- `Model.required`: the loop over `cls.__table__.columns` appending the
name of every column that is neither nullable nor primary key. -/
def required (t : Table) : List String :=
  t.columns.foldl
    (fun columns column =>
      if !column.nullable && !column.primary_key then columns ++ [column.name]
      else columns)
    []

/-- `Model.optional`: the loop over `cls.__table__.columns` appending the
name of every nullable column. -/
def optional (t : Table) : List String :=
  t.columns.foldl
    (fun columns column =>
      if column.nullable then columns ++ [column.name] else columns)
    []

/-- `Model.primary_key`: `list(self.__table__.primary_key.columns)[0].name`;
`none` models the `IndexError` when the table has no primary-key column. -/
def primary_key (self : Instance) : Option String :=
  (self.table.primaryKeyColumns.head?).map (fun c => c.name)

/-- The normalisation `to_dict` applies to one fetched value: a `Decimal`
is replaced by `float` of it, everything else is kept. -/
def decimalToFloat : Value → Value
  | .vdecimal d => .vfloat d
  | v => v

/-- `Model.to_dict`: builds `result_dict` by iterating the column names in
declaration order; each entry is `getattr(self, column, None)`, and a
`Decimal` value is then overwritten by its `float`. -/
def to_dict (self : Instance) : List (String × Value) :=
  self.table.columns.foldl
    (fun result_dict column =>
      let value := (pyGetattr self column.name).getD Value.vnone
      let result_dict := dinsert result_dict column.name value
      match value with
      | .vdecimal d => dinsert result_dict column.name (Value.vfloat d)
      | _ => result_dict)
    []

/-- `Model.resource_uri`: `self.__url__ + "/" + str(getattr(self,
self.primary_key()))`.  A `none` models the propagated exception when
`__url__` is unset, the table has no primary-key column, or the
primary-key attribute is missing. -/
def resource_uri (self : Instance) : Option String := do
  let u ← self.cls.url
  let pk ← primary_key self
  let v ← pyGetattr self pk
  pure (u ++ "/" ++ pyStr v)

/-- The loop body of `Model.links` over the declared relationships:
skips a relationship whose key contains `"collection"`, skips a `None`
related value, and otherwise assigns the related object's
`resource_uri()` under the relationship key; a `none` result models the
exception propagated out of that call. -/
def linksAux : List (String × Option Instance) → List (String × String) →
    Option (List (String × String))
  | [], link_dict => some link_dict
  | p :: rest, link_dict =>
      if strContains "collection" p.1 then linksAux rest link_dict
      else
        match p.2 with
        | none => linksAux rest link_dict
        | some inst =>
            match resource_uri inst with
            | none => none
            | some uri => linksAux rest (dinsert link_dict p.1 uri)

/-- `Model.links`: starts from the dict containing `"self"` bound to
`self.resource_uri()` and folds `linksAux` over the relationships. -/
def links (self : Instance) : Option (List (String × String)) :=
  match resource_uri self with
  | none => none
  | some selfUri => linksAux self.rels [("self", selfUri)]

/-- `Model.update`: iterates the given dictionary in order, performing
`setattr(self, attribute, attributes[attribute])`.  The second component
is `some attribute` when that assignment raised, in which case iteration
stops there; the first component is the instance as mutated so far (the
very `self` the Python code returns on success). -/
def update (self : Instance) : List (String × Value) → Instance × Option String
  | [] => (self, none)
  | (attr, v) :: rest =>
      if attr ∈ self.invalidAttrs then (self, some attr)
      else update (pySetattr self attr v) rest

/-- The entry the `links` loop contributes for one relationship: nothing
for a `"collection"`-keyed relationship or a `None` related value,
otherwise the relationship key bound to the related object's
`resource_uri()` (no entry also when that call fails, but the loop then
aborts; see `linksAux`). -/
def linkEntry (p : String × Option Instance) : Option (String × String) :=
  if strContains "collection" p.1 then none
  else p.2.bind (fun i => (resource_uri i).map (fun uri => (p.1, uri)))

/-- The instance as mutated by a run of successful `setattr` calls, in
order: the state `update` threads through its loop. -/
def updFold (self : Instance) (attrs : List (String × Value)) : Instance :=
  attrs.foldl (fun s p => pySetattr s p.1 p.2) self

end Model

/-- The same instance with its table metadata replaced: used to express
that `update` never consults the table. -/
def Instance.withTable : Instance → Table → Instance
  | .mk c _ a r i, t => .mk c t a r i

section DictLemmas

variable {β : Type}

theorem dlookup_dinsert_self (l : List (String × β)) (k : String) (v : β) :
    dlookup k (dinsert l k v) = some v := by
  induction l with
  | nil => simp [dinsert, dlookup]
  | cons p rest ih =>
      obtain ⟨k2, v2⟩ := p
      by_cases h : k2 = k
      · simp [dinsert, dlookup, h]
      · simp [dinsert, dlookup, h, ih]

theorem dlookup_dinsert_ne (l : List (String × β)) (k k2 : String) (v : β)
    (h : k ≠ k2) : dlookup k2 (dinsert l k v) = dlookup k2 l := by
  induction l with
  | nil => simp [dinsert, dlookup, h]
  | cons p rest ih =>
      obtain ⟨k3, v3⟩ := p
      by_cases h3 : k3 = k
      · subst h3
        simp [dinsert, dlookup, h]
      · simp [dinsert, dlookup, h3, ih]

theorem dinsert_of_notMem (l : List (String × β)) (k : String) (v : β)
    (h : k ∉ dkeys l) : dinsert l k v = l ++ [(k, v)] := by
  induction l with
  | nil => simp [dinsert]
  | cons p rest ih =>
      obtain ⟨k2, v2⟩ := p
      simp only [dkeys, List.map_cons, List.mem_cons] at h
      push_neg at h
      have hne : k2 ≠ k := fun hk => h.1 hk.symm
      simp [dinsert, hne, ih (by simpa [dkeys] using h.2)]

theorem dinsert_append_self (l : List (String × β)) (k : String) (v0 v : β)
    (h : k ∉ dkeys l) : dinsert (l ++ [(k, v0)]) k v = l ++ [(k, v)] := by
  induction l with
  | nil => simp [dinsert]
  | cons p rest ih =>
      obtain ⟨k2, v2⟩ := p
      simp only [dkeys, List.map_cons, List.mem_cons] at h
      push_neg at h
      have hne : k2 ≠ k := fun hk => h.1 hk.symm
      simp [dinsert, hne, ih (by simpa [dkeys] using h.2)]

theorem dkeys_append (l1 l2 : List (String × β)) :
    dkeys (l1 ++ l2) = dkeys l1 ++ dkeys l2 := by
  simp [dkeys]

theorem map_inj_of_nodup {α γ : Type} (f : α → γ) {l : List α} {a b : α}
    (hn : (l.map f).Nodup) (ha : a ∈ l) (hb : b ∈ l) (hf : f a = f b) :
    a = b := by
  induction l with
  | nil => cases ha
  | cons x rest ih =>
      simp only [List.map_cons, List.nodup_cons] at hn
      rcases List.mem_cons.mp ha with rfl | ha2
      · rcases List.mem_cons.mp hb with rfl | hb2
        · rfl
        · exact absurd (hf ▸ List.mem_map_of_mem f hb2) hn.1
      · rcases List.mem_cons.mp hb with rfl | hb2
        · exact absurd (hf ▸ List.mem_map_of_mem f ha2) hn.1
        · exact ih hn.2 ha2 hb2

end DictLemmas

section FoldLemmas

theorem foldl_append_names (p : Column → Bool) :
    ∀ (cols : List Column) (acc : List String),
      cols.foldl (fun a c => if p c then a ++ [c.name] else a) acc =
        acc ++ (cols.filter p).map Column.name := by
  intro cols
  induction cols with
  | nil => intro acc; simp
  | cons c rest ih =>
      intro acc
      by_cases hc : p c
      · simp [List.foldl_cons, hc, ih, List.filter_cons]
      · simp [List.foldl_cons, hc, ih, List.filter_cons]

theorem required_eq (t : Table) :
    Model.required t =
      (t.columns.filter (fun c => !c.nullable && !c.primary_key)).map Column.name := by
  have h := foldl_append_names (fun c => !c.nullable && !c.primary_key) t.columns []
  rw [List.nil_append] at h
  exact h

theorem optional_eq (t : Table) :
    Model.optional t = (t.columns.filter (fun c => c.nullable)).map Column.name := by
  have h := foldl_append_names (fun c => c.nullable) t.columns []
  rw [List.nil_append] at h
  exact h

end FoldLemmas

section ToDictLemmas

theorem to_dict_step (self : Instance) (acc : List (String × Value)) (c : Column)
    (h : c.name ∉ dkeys acc) :
    (let value := (pyGetattr self c.name).getD Value.vnone
     let result_dict := dinsert acc c.name value
     match value with
     | .vdecimal d => dinsert result_dict c.name (Value.vfloat d)
     | _ => result_dict) =
      acc ++ [(c.name, Model.decimalToFloat ((pyGetattr self c.name).getD Value.vnone))] := by
  cases hv : (pyGetattr self c.name).getD Value.vnone <;>
    simp [hv, Model.decimalToFloat, dinsert_of_notMem _ _ _ h,
      dinsert_append_self _ _ _ _ h]

theorem to_dict_fold (self : Instance) :
    ∀ (cols : List Column) (acc : List (String × Value)),
      (cols.map Column.name).Nodup →
      (∀ c ∈ cols, c.name ∉ dkeys acc) →
      cols.foldl
        (fun result_dict column =>
          let value := (pyGetattr self column.name).getD Value.vnone
          let result_dict := dinsert result_dict column.name value
          match value with
          | .vdecimal d => dinsert result_dict column.name (Value.vfloat d)
          | _ => result_dict)
        acc =
        acc ++ cols.map
          (fun c => (c.name, Model.decimalToFloat ((pyGetattr self c.name).getD Value.vnone))) := by
  intro cols
  induction cols with
  | nil => intro acc _ _; simp
  | cons c rest ih =>
      intro acc hnodup hacc
      simp only [List.map_cons, List.nodup_cons] at hnodup
      rw [List.foldl_cons, to_dict_step self acc c (hacc c (List.mem_cons_self c rest))]
      rw [ih (acc ++ [(c.name, Model.decimalToFloat ((pyGetattr self c.name).getD Value.vnone))])
        hnodup.2 ?_]
      · simp
      · intro c2 hc2
        rw [dkeys_append]
        simp only [List.mem_append, dkeys, List.map_cons, List.map_nil, List.mem_singleton]
        push_neg
        refine ⟨hacc c2 (List.mem_cons_of_mem c hc2), ?_⟩
        intro hname
        exact hnodup.1 (hname ▸ List.mem_map_of_mem Column.name hc2)

theorem to_dict_eq (self : Instance)
    (hnodup : (self.table.columns.map Column.name).Nodup) :
    Model.to_dict self =
      self.table.columns.map
        (fun c => (c.name, Model.decimalToFloat ((pyGetattr self c.name).getD Value.vnone))) := by
  have h := to_dict_fold self self.table.columns [] hnodup (by simp [dkeys])
  rw [List.nil_append] at h
  exact h

theorem dlookup_map_columns (f : Column → Value) :
    ∀ (cols : List Column), (cols.map Column.name).Nodup → ∀ c ∈ cols,
      dlookup c.name (cols.map (fun c2 => (c2.name, f c2))) = some (f c) := by
  intro cols
  induction cols with
  | nil => intro _ c hc; cases hc
  | cons c0 rest ih =>
      intro hnodup c hc
      simp only [List.map_cons, List.nodup_cons] at hnodup
      by_cases heq : c0.name = c.name
      · have hc0 : c0 = c := by
          rcases List.mem_cons.mp hc with rfl | hc2
          · rfl
          · exact absurd (heq ▸ List.mem_map_of_mem Column.name hc2) hnodup.1
        simp [dlookup, heq, hc0]
      · have hc2 : c ∈ rest := by
          rcases List.mem_cons.mp hc with rfl | hc2
          · exact absurd rfl heq
          · exact hc2
        simp [dlookup, heq, ih hnodup.2 c hc2]

end ToDictLemmas

section UpdateLemmas

theorem pySetattr_cls (s : Instance) (k : String) (v : Value) :
    (pySetattr s k v).cls = s.cls := rfl

theorem pySetattr_table (s : Instance) (k : String) (v : Value) :
    (pySetattr s k v).table = s.table := rfl

theorem pySetattr_rels (s : Instance) (k : String) (v : Value) :
    (pySetattr s k v).rels = s.rels := rfl

theorem pySetattr_invalidAttrs (s : Instance) (k : String) (v : Value) :
    (pySetattr s k v).invalidAttrs = s.invalidAttrs := rfl

theorem update_ok (attrs : List (String × Value)) :
    ∀ self : Instance, (∀ p ∈ attrs, p.1 ∉ self.invalidAttrs) →
      Model.update self attrs = (Model.updFold self attrs, none) := by
  induction attrs with
  | nil => intro self _; rfl
  | cons p rest ih =>
      intro self hok
      obtain ⟨k, v⟩ := p
      have hk : k ∉ self.invalidAttrs := hok (k, v) (List.mem_cons_self _ _)
      rw [Model.update, if_neg hk]
      rw [ih (pySetattr self k v)
        (fun q hq => by rw [pySetattr_invalidAttrs]; exact hok q (List.mem_cons_of_mem _ hq))]
      rfl

theorem update_stops (pre : List (String × Value)) (k : String) (v : Value)
    (post : List (String × Value)) :
    ∀ self : Instance, (∀ p ∈ pre, p.1 ∉ self.invalidAttrs) → k ∈ self.invalidAttrs →
      Model.update self (pre ++ (k, v) :: post) = (Model.updFold self pre, some k) := by
  induction pre with
  | nil =>
      intro self _ hk
      rw [List.nil_append, Model.update, if_pos hk]
      rfl
  | cons p rest ih =>
      intro self hpre hk
      obtain ⟨k0, v0⟩ := p
      have hk0 : k0 ∉ self.invalidAttrs := hpre (k0, v0) (List.mem_cons_self _ _)
      rw [List.cons_append, Model.update, if_neg hk0]
      rw [ih (pySetattr self k0 v0)
        (fun q hq => by rw [pySetattr_invalidAttrs]; exact hpre q (List.mem_cons_of_mem _ hq))
        (by rw [pySetattr_invalidAttrs]; exact hk)]
      rfl

theorem updFold_cls (attrs : List (String × Value)) :
    ∀ self : Instance, (Model.updFold self attrs).cls = self.cls := by
  induction attrs with
  | nil => intro self; rfl
  | cons p rest ih => intro self; rw [Model.updFold, List.foldl_cons]; exact ih (pySetattr self p.1 p.2)

theorem updFold_table (attrs : List (String × Value)) :
    ∀ self : Instance, (Model.updFold self attrs).table = self.table := by
  induction attrs with
  | nil => intro self; rfl
  | cons p rest ih => intro self; rw [Model.updFold, List.foldl_cons]; exact ih (pySetattr self p.1 p.2)

theorem updFold_rels (attrs : List (String × Value)) :
    ∀ self : Instance, (Model.updFold self attrs).rels = self.rels := by
  induction attrs with
  | nil => intro self; rfl
  | cons p rest ih => intro self; rw [Model.updFold, List.foldl_cons]; exact ih (pySetattr self p.1 p.2)

theorem pyGetattr_updFold_of_notMem (attrs : List (String × Value)) :
    ∀ (self : Instance) (k : String), k ∉ dkeys attrs →
      pyGetattr (Model.updFold self attrs) k = pyGetattr self k := by
  induction attrs with
  | nil => intro self k _; rfl
  | cons p rest ih =>
      intro self k hk
      obtain ⟨k0, v0⟩ := p
      simp only [dkeys, List.map_cons, List.mem_cons] at hk
      push_neg at hk
      rw [Model.updFold, List.foldl_cons]
      have h1 : pyGetattr (Model.updFold (pySetattr self k0 v0) rest) k =
          pyGetattr (pySetattr self k0 v0) k := ih (pySetattr self k0 v0) k (by simpa [dkeys] using hk.2)
      rw [Model.updFold] at h1
      rw [h1]
      show dlookup k (dinsert self.attrs k0 v0) = pyGetattr self k
      rw [dlookup_dinsert_ne self.attrs k0 k v0 (fun h => hk.1 h.symm)]
      rfl

theorem pyGetattr_updFold_of_mem (attrs : List (String × Value)) :
    ∀ (self : Instance) (k : String) (v : Value), (dkeys attrs).Nodup → (k, v) ∈ attrs →
      pyGetattr (Model.updFold self attrs) k = some v := by
  induction attrs with
  | nil => intro self k v _ h; cases h
  | cons p rest ih =>
      intro self k v hnodup hmem
      obtain ⟨k0, v0⟩ := p
      simp only [dkeys, List.map_cons, List.nodup_cons] at hnodup
      rw [Model.updFold, List.foldl_cons]
      rcases List.mem_cons.mp hmem with heq | hmem2
      · have hk : k = k0 := congrArg Prod.fst heq
        have hv : v = v0 := congrArg Prod.snd heq
        subst hk
        subst hv
        refine (pyGetattr_updFold_of_notMem rest (pySetattr self k v) k
          (by simpa [dkeys] using hnodup.1)).trans ?_
        exact dlookup_dinsert_self self.attrs k v
      · exact ih (pySetattr self k0 v0) k v hnodup.2 hmem2

theorem withTable_invalidAttrs (self : Instance) (t : Table) :
    (self.withTable t).invalidAttrs = self.invalidAttrs := by
  cases self; rfl

theorem pySetattr_withTable (self : Instance) (t : Table) (k : String) (v : Value) :
    pySetattr (self.withTable t) k v = (pySetattr self k v).withTable t := by
  cases self; rfl

theorem update_withTable (attrs : List (String × Value)) :
    ∀ (self : Instance) (t : Table),
      Model.update (self.withTable t) attrs =
        ((Model.update self attrs).1.withTable t, (Model.update self attrs).2) := by
  induction attrs with
  | nil => intro self t; rfl
  | cons p rest ih =>
      intro self t
      obtain ⟨k, v⟩ := p
      rw [Model.update, Model.update, withTable_invalidAttrs]
      by_cases hk : k ∈ self.invalidAttrs
      · rw [if_pos hk, if_pos hk]
      · rw [if_neg hk, if_neg hk, pySetattr_withTable, ih (pySetattr self k v) t]

end UpdateLemmas

section LinksLemmas

theorem linkEntry_key (p : String × Option Instance) (e : String × String)
    (h : Model.linkEntry p = some e) : e.1 = p.1 := by
  obtain ⟨k, r⟩ := p
  by_cases hc : strContains "collection" k = true
  · simp [Model.linkEntry, hc] at h
  · cases r with
    | none => simp [Model.linkEntry, hc] at h
    | some i =>
        cases hu : Model.resource_uri i with
        | none => simp [Model.linkEntry, hc, hu] at h
        | some u =>
            simp [Model.linkEntry, hc, hu] at h
            cases h
            rfl

theorem dlookup_linkEntry_none (key : String) :
    ∀ rels : List (String × Option Instance),
      (∀ p ∈ rels, p.1 ≠ key ∨ Model.linkEntry p = none) →
      dlookup key (rels.filterMap Model.linkEntry) = none := by
  intro rels
  induction rels with
  | nil => intro _; rfl
  | cons p rest ih =>
      intro h
      have hrest := fun q hq => h q (List.mem_cons_of_mem p hq)
      cases he : Model.linkEntry p with
      | none =>
          rw [List.filterMap_cons, he]
          exact ih hrest
      | some e =>
          rcases h p (List.mem_cons_self p rest) with hne | hnone
          · rw [List.filterMap_cons, he]
            obtain ⟨ek, ev⟩ := e
            have hek : ek = p.1 := linkEntry_key p (ek, ev) he
            rw [dlookup, if_neg (fun hk => hne (hek ▸ hk))]
            exact ih hrest
          · rw [he] at hnone
            cases hnone

theorem dlookup_linkEntry_mem (key : String) (i : Instance) :
    ∀ rels : List (String × Option Instance),
      (dkeys rels).Nodup → (key, some i) ∈ rels → strContains "collection" key = false →
      dlookup key (rels.filterMap Model.linkEntry) = Model.resource_uri i := by
  intro rels
  induction rels with
  | nil => intro _ hmem _; cases hmem
  | cons p rest ih =>
      intro hnodup hmem hc
      simp only [dkeys, List.map_cons, List.nodup_cons] at hnodup
      rcases List.mem_cons.mp hmem with heq | hmem2
      · have hk : key = p.1 := congrArg Prod.fst heq
        have hr : p.2 = some i := (congrArg Prod.snd heq).symm
        have hcp : ¬ strContains "collection" p.1 = true := by
          rw [← hk, hc]
          simp
        have he : Model.linkEntry p = (Model.resource_uri i).map (fun uri => (p.1, uri)) := by
          rw [Model.linkEntry, if_neg hcp, hr]
          rfl
        cases hu : Model.resource_uri i with
        | none =>
            rw [hu] at he
            rw [List.filterMap_cons, he]
            exact dlookup_linkEntry_none key rest
              (fun q hq => Or.inl (fun hq1 =>
                hnodup.1 (by rw [← hk, ← hq1]; exact List.mem_map_of_mem Prod.fst hq)))
        | some u =>
            rw [hu] at he
            have he2 : Model.linkEntry p = some (p.1, u) := by rw [he]; rfl
            rw [List.filterMap_cons, he2]
            show dlookup key ((p.1, u) :: List.filterMap Model.linkEntry rest) = some u
            rw [dlookup, if_pos hk.symm]
      · have hkey : key ∈ dkeys rest := by
          have := List.mem_map_of_mem Prod.fst hmem2
          simpa [dkeys] using this
        have hne : p.1 ≠ key := fun hp => hnodup.1 (hp ▸ hkey)
        cases he : Model.linkEntry p with
        | none =>
            rw [List.filterMap_cons, he]
            exact ih hnodup.2 hmem2 hc
        | some e =>
            rw [List.filterMap_cons, he]
            obtain ⟨ek, ev⟩ := e
            have hek : ek = p.1 := linkEntry_key p (ek, ev) he
            rw [dlookup, if_neg (fun hk2 => hne (hek ▸ hk2))]
            exact ih hnodup.2 hmem2 hc

theorem dkeys_filterMap_sub (rels : List (String × Option Instance)) (k : String)
    (hk : k ∈ dkeys (rels.filterMap Model.linkEntry)) : k ∈ dkeys rels := by
  simp only [dkeys, List.mem_map] at hk ⊢
  obtain ⟨e, he, hek⟩ := hk
  obtain ⟨p, hp, hpe⟩ := List.mem_filterMap.mp he
  exact ⟨p, hp, by rw [← hek, linkEntry_key p e hpe]⟩

theorem linksAux_eq :
    ∀ (rels : List (String × Option Instance)) (acc : List (String × String)),
      (∀ p ∈ rels, strContains "collection" p.1 = false →
        ∀ j, p.2 = some j → (Model.resource_uri j).isSome = true) →
      (dkeys rels).Nodup →
      (∀ k ∈ dkeys rels, k ∉ dkeys acc) →
      Model.linksAux rels acc = some (acc ++ rels.filterMap Model.linkEntry) := by
  intro rels
  induction rels with
  | nil => intro acc _ _ _; simp [Model.linksAux]
  | cons p rest ih =>
      intro acc hok hnodup hacc
      simp only [dkeys, List.map_cons, List.nodup_cons] at hnodup
      have hrest := fun acc2 h2 =>
        ih acc2 (fun q hq hq1 => hok q (List.mem_cons_of_mem _ hq) hq1) hnodup.2 h2
      have haccrest : ∀ k ∈ dkeys rest, k ∉ dkeys acc := fun k hk =>
        hacc k (by simp only [dkeys, List.map_cons, List.mem_cons]; exact Or.inr hk)
      by_cases hc : strContains "collection" p.1 = true
      · rw [Model.linksAux, if_pos hc]
        have he : Model.linkEntry p = none := by
          rw [Model.linkEntry, if_pos hc]
        rw [List.filterMap_cons, he]
        exact hrest acc haccrest
      · rw [Model.linksAux, if_neg hc]
        have he : Model.linkEntry p = p.2.bind
            (fun i => (Model.resource_uri i).map (fun uri => (p.1, uri))) := by
          rw [Model.linkEntry, if_neg hc]
        cases hr : p.2 with
        | none =>
            rw [hr] at he
            rw [List.filterMap_cons, he]
            exact hrest acc haccrest
        | some j =>
            have hj := hok p (List.mem_cons_self _ _) (by simpa using hc) j hr
            obtain ⟨u, hu⟩ := Option.isSome_iff_exists.mp hj
            show (match Model.resource_uri j with
                  | none => none
                  | some uri => Model.linksAux rest (dinsert acc p.1 uri)) =
              some (acc ++ List.filterMap Model.linkEntry (p :: rest))
            rw [hu]
            have he2 : Model.linkEntry p = some (p.1, u) := by
              rw [he, hr]
              show Option.map (fun uri => (p.1, uri)) (Model.resource_uri j) = some (p.1, u)
              rw [hu]
              rfl
            have hkacc : p.1 ∉ dkeys acc := hacc p.1 (by simp [dkeys])
            show Model.linksAux rest (dinsert acc p.1 u) =
              some (acc ++ List.filterMap Model.linkEntry (p :: rest))
            rw [dinsert_of_notMem acc p.1 u hkacc]
            rw [hrest (acc ++ [(p.1, u)]) ?_]
            · rw [List.filterMap_cons, he2]
              simp
            · intro k hk
              rw [dkeys_append]
              simp only [List.mem_append, dkeys, List.map_cons, List.map_nil,
                List.mem_singleton]
              push_neg
              refine ⟨haccrest k hk, ?_⟩
              intro hkk
              exact hnodup.1 (hkk ▸ hk)

end LinksLemmas

/-! Concrete instances used by the witnesses. -/

def widgetTable : Table :=
  ⟨[⟨"id", false, true⟩, ⟨"name", false, false⟩, ⟨"note", true, false⟩]⟩

def widgetClass : ModelClass := ⟨some "/widgets"⟩

def widget : Instance :=
  .mk widgetClass widgetTable
    [("id", .vint 42), ("name", .vstr "foo"), ("note", .vnone)] [] []

def widgetCopy : Instance :=
  .mk ⟨none⟩ widgetTable
    [("id", .vint 42), ("name", .vstr "foo"), ("note", .vnone)] [("x", none)] ["y"]

def ownerInst : Instance :=
  .mk ⟨some "/people"⟩ ⟨[⟨"id", false, true⟩]⟩ [("id", .vint 7)] [] []

def widgetWithRels : Instance :=
  .mk widgetClass widgetTable [("id", .vint 42)]
    [("owner", some ownerInst), ("orders_collection", some ownerInst), ("parent", none)] []

def compositeTable : Table :=
  ⟨[⟨"id", false, true⟩, ⟨"code", false, true⟩, ⟨"val", true, false⟩]⟩

def compositeInst : Instance := .mk ⟨none⟩ compositeTable [] [] []

def priceTable : Table := ⟨[⟨"id", false, true⟩, ⟨"price", true, false⟩]⟩

def priceInst : Instance :=
  .mk widgetClass priceTable [("id", .vint 1), ("price", .vdecimal ⟨314, 2⟩)] [] []

def sparse : Instance := .mk widgetClass widgetTable [("id", .vint 5)] [] []

def frozen : Instance := .mk widgetClass widgetTable [("id", .vint 42)] [] ["locked"]

/-- Claim C1: for a mapped table (the spec's invariant gives it exactly one
primary-key column and, as a real table, pairwise distinct column names),
the names in `required()`, the names in `optional()` and the name returned
by `primary_key()` together are exactly the table's column names, and
`required()` and `optional()` are disjoint. -/
theorem required_optional_primary_key_partition (self : Instance) (c : Column)
    (hnodup : (self.table.columns.map Column.name).Nodup)
    (hpk : self.table.primaryKeyColumns = [c]) :
    Model.primary_key self = some c.name ∧
    (∀ x, (x ∈ Model.required self.table ∨ x ∈ Model.optional self.table ∨ x = c.name) ↔
      x ∈ self.table.columns.map Column.name) ∧
    (∀ x, x ∈ Model.required self.table → x ∉ Model.optional self.table) := by
  refine ⟨?_, ?_, ?_⟩
  · rw [Model.primary_key, hpk]
    rfl
  · intro x
    constructor
    · rintro (hx | hx | rfl)
      · rw [required_eq] at hx
        obtain ⟨col, hcol, rfl⟩ := List.mem_map.mp hx
        exact List.mem_map_of_mem _ (List.mem_of_mem_filter hcol)
      · rw [optional_eq] at hx
        obtain ⟨col, hcol, rfl⟩ := List.mem_map.mp hx
        exact List.mem_map_of_mem _ (List.mem_of_mem_filter hcol)
      · have hcmem : c ∈ self.table.primaryKeyColumns := by
          rw [hpk]
          exact List.mem_singleton_self c
        rw [Table.primaryKeyColumns] at hcmem
        exact List.mem_map_of_mem _ (List.mem_of_mem_filter hcmem)
    · intro hx
      obtain ⟨col, hcol, rfl⟩ := List.mem_map.mp hx
      by_cases hn : col.nullable
      · right
        left
        rw [optional_eq]
        exact List.mem_map_of_mem _ (List.mem_filter.mpr ⟨hcol, by simp [hn]⟩)
      · by_cases hp : col.primary_key
        · right
          right
          have hcm : col ∈ self.table.primaryKeyColumns :=
            List.mem_filter.mpr ⟨hcol, by simp [hp]⟩
          rw [hpk, List.mem_singleton] at hcm
          rw [hcm]
        · left
          rw [required_eq]
          exact List.mem_map_of_mem _
            (List.mem_filter.mpr ⟨hcol, by simp [hn, hp]⟩)
  · intro x hr ho
    rw [required_eq] at hr
    rw [optional_eq] at ho
    obtain ⟨col, hcolf, hname⟩ := List.mem_map.mp hr
    obtain ⟨col2, hcolf2, hname2⟩ := List.mem_map.mp ho
    have h1 := List.mem_filter.mp hcolf
    have h2 := List.mem_filter.mp hcolf2
    have hcc : col = col2 :=
      map_inj_of_nodup Column.name hnodup h1.1 h2.1 (hname.trans hname2.symm)
    obtain ⟨hn1, -⟩ : col.nullable = false ∧ col.primary_key = false := by
      simpa using h1.2
    have hn2 : col2.nullable = true := h2.2
    rw [hcc, hn2] at hn1
    cases hn1

/-- Claim C1 witness: the partition at a concrete three-column table. -/
theorem required_optional_primary_key_partition_witness :
    Model.primary_key widget = some "id" ∧
    (∀ x, (x ∈ Model.required widget.table ∨ x ∈ Model.optional widget.table ∨ x = "id") ↔
      x ∈ widget.table.columns.map Column.name) ∧
    (∀ x, x ∈ Model.required widget.table → x ∉ Model.optional widget.table) :=
  required_optional_primary_key_partition widget ⟨"id", false, true⟩ (by decide) (by decide)

/-- Claim C2: under the spec's assumptions (the instance's own
`resource_uri()` succeeds, relationship keys are distinct, none is named
`"self"`, and `resource_uri()` succeeds on every linked object), `links()`
returns the dict with `"self"` bound to `resource_uri()`, one entry per
non-`"collection"`-keyed relationship with a non-null value binding the
relationship name to the related object's `resource_uri()`, and nothing
else: `"collection"`-keyed and null-valued relationships are omitted. -/
theorem links_spec (self : Instance) (selfUri : String)
    (hself : Model.resource_uri self = some selfUri)
    (hnotself : "self" ∉ dkeys self.rels)
    (hnodup : (dkeys self.rels).Nodup)
    (hok : ∀ p ∈ self.rels, strContains "collection" p.1 = false →
      ∀ j, p.2 = some j → (Model.resource_uri j).isSome = true) :
    ∃ L, Model.links self = some L ∧
      L = ("self", selfUri) :: self.rels.filterMap Model.linkEntry ∧
      dlookup "self" L = some selfUri ∧
      (∀ key j, (key, some j) ∈ self.rels → strContains "collection" key = false →
        dlookup key L = Model.resource_uri j) ∧
      (∀ key, key ∈ dkeys self.rels → strContains "collection" key = true →
        dlookup key L = none) ∧
      (∀ key, (key, none) ∈ self.rels → dlookup key L = none) ∧
      (∀ k, k ∈ dkeys L → k = "self" ∨ k ∈ dkeys self.rels) := by
  have hstart : ∀ k ∈ dkeys self.rels, k ∉ dkeys [("self", selfUri)] := by
    intro k hk
    simp only [dkeys, List.map_cons, List.map_nil, List.mem_singleton]
    intro hks
    rw [hks] at hk
    exact hnotself hk
  have haux := linksAux_eq self.rels [("self", selfUri)] hok hnodup hstart
  have hlinks : Model.links self =
      some (("self", selfUri) :: self.rels.filterMap Model.linkEntry) := by
    have hm : Model.links self = Model.linksAux self.rels [("self", selfUri)] := by
      rw [Model.links, hself]
    rw [hm, haux, List.singleton_append]
  refine ⟨("self", selfUri) :: self.rels.filterMap Model.linkEntry,
    hlinks, rfl, by simp [dlookup], ?_, ?_, ?_, ?_⟩
  · intro key j hmem hc
    have hkd : key ∈ dkeys self.rels := by
      simpa [dkeys] using List.mem_map_of_mem Prod.fst hmem
    have hkne : key ≠ "self" := fun h => hnotself (h ▸ hkd)
    rw [dlookup, if_neg (fun h => hkne h.symm)]
    exact dlookup_linkEntry_mem key j self.rels hnodup hmem hc
  · intro key hkey hc
    have hkne : key ≠ "self" := fun h => hnotself (h ▸ hkey)
    rw [dlookup, if_neg (fun h => hkne h.symm)]
    apply dlookup_linkEntry_none
    intro q hq
    by_cases hqk : q.1 = key
    · right
      rw [Model.linkEntry, if_pos (by rw [hqk]; exact hc)]
    · left
      exact hqk
  · intro key hmem
    have hkd : key ∈ dkeys self.rels := by
      simpa [dkeys] using List.mem_map_of_mem Prod.fst hmem
    have hkne : key ≠ "self" := fun h => hnotself (h ▸ hkd)
    rw [dlookup, if_neg (fun h => hkne h.symm)]
    apply dlookup_linkEntry_none
    intro q hq
    by_cases hqk : q.1 = key
    · right
      have hq2 : q = (key, none) :=
        map_inj_of_nodup Prod.fst hnodup hq hmem (by rw [hqk])
      rw [hq2, Model.linkEntry]
      by_cases hck : strContains "collection" key = true
      · rw [if_pos hck]
      · rw [if_neg hck]
        rfl
    · left
      exact hqk
  · intro k hk
    simp only [dkeys, List.map_cons, List.mem_cons] at hk
    rcases hk with rfl | hk2
    · left
      rfl
    · right
      exact dkeys_filterMap_sub self.rels k (by simpa [dkeys] using hk2)

/-- Claim C2 witness: `links` at an instance with one singular non-null
relationship, one collection relationship and one null singular
relationship. -/
theorem links_spec_witness :
    ∃ L, Model.links widgetWithRels = some L ∧
      L = ("self", "/widgets/42") :: widgetWithRels.rels.filterMap Model.linkEntry ∧
      dlookup "self" L = some "/widgets/42" ∧
      (∀ key j, (key, some j) ∈ widgetWithRels.rels → strContains "collection" key = false →
        dlookup key L = Model.resource_uri j) ∧
      (∀ key, key ∈ dkeys widgetWithRels.rels → strContains "collection" key = true →
        dlookup key L = none) ∧
      (∀ key, (key, none) ∈ widgetWithRels.rels → dlookup key L = none) ∧
      (∀ k, k ∈ dkeys L → k = "self" ∨ k ∈ dkeys widgetWithRels.rels) :=
  links_spec widgetWithRels "/widgets/42" (by decide) (by decide) (by decide)
    (by
      intro p hp hc j hj
      rcases (show p = ("owner", some ownerInst) ∨ p = ("orders_collection", some ownerInst) ∨
          p = ("parent", (none : Option Instance)) by
        simpa [widgetWithRels, Instance.rels] using hp) with rfl | rfl | rfl
      · have hji : ownerInst = j := Option.some.inj hj
        rw [← hji]
        decide
      · exact absurd hc (by decide)
      · exact Option.noConfusion hj)

/-- Claim C3: `update(attributes)` performs exactly the `setattr` run over
the given dictionary — every given key (column or not, no whitelist, no
type check) ends up bound to its given value, other attributes and the
class, table and relationship state are untouched, the table metadata is
never consulted, and the returned value is the mutated instance itself. -/
theorem update_sets_attributes (self : Instance) (attributes : List (String × Value))
    (hnodup : (dkeys attributes).Nodup)
    (hok : ∀ p ∈ attributes, p.1 ∉ self.invalidAttrs) :
    Model.update self attributes = (Model.updFold self attributes, none) ∧
    (∀ k v, (k, v) ∈ attributes →
      pyGetattr (Model.update self attributes).1 k = some v) ∧
    (∀ k, k ∉ dkeys attributes →
      pyGetattr (Model.update self attributes).1 k = pyGetattr self k) ∧
    (Model.update self attributes).1.cls = self.cls ∧
    (Model.update self attributes).1.table = self.table ∧
    (Model.update self attributes).1.rels = self.rels ∧
    (∀ t, Model.update (self.withTable t) attributes =
      ((Model.update self attributes).1.withTable t, none)) := by
  have hupd := update_ok attributes self hok
  refine ⟨hupd, ?_, ?_, ?_, ?_, ?_, ?_⟩
  · intro k v hm
    rw [hupd]
    exact pyGetattr_updFold_of_mem attributes self k v hnodup hm
  · intro k hk
    rw [hupd]
    exact pyGetattr_updFold_of_notMem attributes self k hk
  · rw [hupd]
    exact updFold_cls attributes self
  · rw [hupd]
    exact updFold_table attributes self
  · rw [hupd]
    exact updFold_rels attributes self
  · intro t
    rw [update_withTable attributes self t, hupd]

/-- Claim C3 witness: `update` with the spec's example dictionary. -/
theorem update_sets_attributes_witness :
    Model.update widget [("name", Value.vstr "foo")] =
      (Model.updFold widget [("name", Value.vstr "foo")], none) ∧
    (∀ k v, (k, v) ∈ [("name", Value.vstr "foo")] →
      pyGetattr (Model.update widget [("name", Value.vstr "foo")]).1 k = some v) ∧
    (∀ k, k ∉ dkeys [("name", Value.vstr "foo")] →
      pyGetattr (Model.update widget [("name", Value.vstr "foo")]).1 k = pyGetattr widget k) ∧
    (Model.update widget [("name", Value.vstr "foo")]).1.cls = widget.cls ∧
    (Model.update widget [("name", Value.vstr "foo")]).1.table = widget.table ∧
    (Model.update widget [("name", Value.vstr "foo")]).1.rels = widget.rels ∧
    (∀ t, Model.update (widget.withTable t) [("name", Value.vstr "foo")] =
      ((Model.update widget [("name", Value.vstr "foo")]).1.withTable t, none)) :=
  update_sets_attributes widget [("name", Value.vstr "foo")] (by decide) (by decide)

/-- Claim C4: `update` is not atomic — when assignment of one key raises,
the call fails right there and every earlier key of the dictionary is
already mutated on the instance, with no rollback. -/
theorem update_not_atomic (self : Instance) (pre post : List (String × Value))
    (k : String) (v : Value)
    (hpre : ∀ p ∈ pre, p.1 ∉ self.invalidAttrs)
    (hk : k ∈ self.invalidAttrs)
    (hnodup : (dkeys pre).Nodup) :
    Model.update self (pre ++ (k, v) :: post) = (Model.updFold self pre, some k) ∧
    (∀ k2 v2, (k2, v2) ∈ pre →
      pyGetattr (Model.update self (pre ++ (k, v) :: post)).1 k2 = some v2) := by
  have h := update_stops pre k v post self hpre hk
  refine ⟨h, fun k2 v2 hm => ?_⟩
  rw [h]
  exact pyGetattr_updFold_of_mem pre self k2 v2 hnodup hm

/-- Claim C4 witness: an invalid second key aborts the run with the first
key already mutated. -/
theorem update_not_atomic_witness :
    Model.update frozen
        ([("name", Value.vstr "a")] ++ ("locked", Value.vint 0) :: [("note", Value.vstr "b")]) =
      (Model.updFold frozen [("name", Value.vstr "a")], some "locked") ∧
    (∀ k2 v2, (k2, v2) ∈ [("name", Value.vstr "a")] →
      pyGetattr (Model.update frozen
        ([("name", Value.vstr "a")] ++ ("locked", Value.vint 0) :: [("note", Value.vstr "b")])).1
        k2 = some v2) :=
  update_not_atomic frozen [("name", Value.vstr "a")] [("note", Value.vstr "b")]
    "locked" (Value.vint 0) (by decide) (by decide) (by decide)

/-- Claim C5: with `__url__` set (and the invariant primary-key attribute
present), `resource_uri()` is `url + "/" + str(primary key value)`. -/
theorem resource_uri_spec (self : Instance) (u pk : String) (v : Value)
    (hurl : self.cls.url = some u)
    (hpk : Model.primary_key self = some pk)
    (hv : pyGetattr self pk = some v) :
    Model.resource_uri self = some (u ++ "/" ++ pyStr v) := by
  simp [Model.resource_uri, hurl, hpk, hv]

/-- Claim C5 witness: primary key `42` and `url = "/widgets"` give
`"/widgets/42"`. -/
theorem resource_uri_spec_witness :
    Model.resource_uri widget = some ("/widgets" ++ "/" ++ pyStr (Value.vint 42)) ∧
    "/widgets" ++ "/" ++ pyStr (Value.vint 42) = "/widgets/42" :=
  ⟨resource_uri_spec widget "/widgets" "id" (Value.vint 42) (by decide) (by decide)
    (by decide), by decide⟩

/-- Claim C6: `to_dict()` has exactly the column names as keys, each bound
to the instance's current value for that column, except that a `Decimal`
value appears as its `float`. -/
theorem to_dict_spec (self : Instance)
    (hnodup : (self.table.columns.map Column.name).Nodup) :
    Model.to_dict self =
      self.table.columns.map
        (fun c => (c.name, Model.decimalToFloat ((pyGetattr self c.name).getD Value.vnone))) ∧
    dkeys (Model.to_dict self) = self.table.columns.map Column.name ∧
    (∀ c ∈ self.table.columns, ∀ v, pyGetattr self c.name = some v →
      dlookup c.name (Model.to_dict self) = some (Model.decimalToFloat v)) ∧
    (∀ c ∈ self.table.columns, ∀ d, pyGetattr self c.name = some (Value.vdecimal d) →
      dlookup c.name (Model.to_dict self) = some (Value.vfloat d)) := by
  have heq := to_dict_eq self hnodup
  refine ⟨heq, ?_, ?_, ?_⟩
  · rw [heq]
    simp [dkeys, List.map_map]
  · intro c hc v hv
    rw [heq, dlookup_map_columns _ self.table.columns hnodup c hc, hv]
    rfl
  · intro c hc d hd
    rw [heq, dlookup_map_columns _ self.table.columns hnodup c hc, hd]
    rfl

/-- Claim C6 witness: a `Decimal("3.14")`-valued column appears as the
float `3.14` (payload `⟨314, 2⟩`). -/
theorem to_dict_spec_witness :
    (Model.to_dict priceInst =
      priceInst.table.columns.map
        (fun c => (c.name, Model.decimalToFloat ((pyGetattr priceInst c.name).getD Value.vnone))) ∧
    dkeys (Model.to_dict priceInst) = priceInst.table.columns.map Column.name ∧
    (∀ c ∈ priceInst.table.columns, ∀ v, pyGetattr priceInst c.name = some v →
      dlookup c.name (Model.to_dict priceInst) = some (Model.decimalToFloat v)) ∧
    (∀ c ∈ priceInst.table.columns, ∀ d, pyGetattr priceInst c.name = some (Value.vdecimal d) →
      dlookup c.name (Model.to_dict priceInst) = some (Value.vfloat d))) ∧
    dlookup "price" (Model.to_dict priceInst) = some (Value.vfloat ⟨314, 2⟩) :=
  ⟨to_dict_spec priceInst (by decide), by decide⟩

/-- Claim C7: `primary_key()` returns the name of the first declared
primary-key column, also under a composite primary key. -/
theorem primary_key_first_column (self : Instance) (c : Column) (cs : List Column)
    (hpk : self.table.primaryKeyColumns = c :: cs) :
    Model.primary_key self = some c.name := by
  rw [Model.primary_key, hpk]
  rfl

/-- Claim C7 witness: a composite two-column primary key reports only the
first declared column. -/
theorem primary_key_first_column_witness :
    Model.primary_key compositeInst = some "id" :=
  primary_key_first_column compositeInst ⟨"id", false, true⟩ [⟨"code", false, true⟩]
    (by decide)

/-- Claim C8: `required()` lists, in declaration order, exactly the
non-nullable non-primary-key column names, and `optional()` exactly the
nullable ones; both are pure functions of the table metadata. -/
theorem required_optional_spec (t : Table) :
    Model.required t =
      (t.columns.filter (fun c => !c.nullable && !c.primary_key)).map Column.name ∧
    Model.optional t = (t.columns.filter (fun c => c.nullable)).map Column.name ∧
    (∀ x, x ∈ Model.required t ↔
      ∃ c ∈ t.columns, c.nullable = false ∧ c.primary_key = false ∧ c.name = x) ∧
    (∀ x, x ∈ Model.optional t ↔ ∃ c ∈ t.columns, c.nullable = true ∧ c.name = x) := by
  refine ⟨required_eq t, optional_eq t, ?_, ?_⟩
  · intro x
    rw [required_eq]
    constructor
    · intro hx
      obtain ⟨c, hcf, rfl⟩ := List.mem_map.mp hx
      obtain ⟨hcm, hcp⟩ := List.mem_filter.mp hcf
      obtain ⟨hn, hp⟩ : c.nullable = false ∧ c.primary_key = false := by simpa using hcp
      exact ⟨c, hcm, hn, hp, rfl⟩
    · rintro ⟨c, hcm, hn, hp, rfl⟩
      exact List.mem_map_of_mem _ (List.mem_filter.mpr ⟨hcm, by simp [hn, hp]⟩)
  · intro x
    rw [optional_eq]
    constructor
    · intro hx
      obtain ⟨c, hcf, rfl⟩ := List.mem_map.mp hx
      obtain ⟨hcm, hcp⟩ := List.mem_filter.mp hcf
      exact ⟨c, hcm, hcp, rfl⟩
    · rintro ⟨c, hcm, hn, rfl⟩
      exact List.mem_map_of_mem _ (List.mem_filter.mpr ⟨hcm, hn⟩)

/-- Claim C9: `to_dict()` reads nothing but the table metadata and the
current attribute values, so two calls with no mutation in between — any
two instances agreeing on those — give identical mappings. -/
theorem to_dict_idempotent (self other : Instance)
    (htable : other.table = self.table) (hattrs : other.attrs = self.attrs) :
    Model.to_dict other = Model.to_dict self := by
  simp only [Model.to_dict, pyGetattr, htable, hattrs]

/-- Claim C9 witness: two instances with equal table and attribute state
(but different class, relationship and descriptor state) serialize
identically. -/
theorem to_dict_idempotent_witness :
    Model.to_dict widgetCopy = Model.to_dict widget :=
  to_dict_idempotent widget widgetCopy (by decide) (by decide)

/-- Claim C10: a column missing from the instance's attributes does not
make `to_dict()` fail: the column is bound to `None`. -/
theorem to_dict_missing_attribute_none (self : Instance) (c : Column)
    (hnodup : (self.table.columns.map Column.name).Nodup)
    (hc : c ∈ self.table.columns)
    (hmiss : pyGetattr self c.name = none) :
    dlookup c.name (Model.to_dict self) = some Value.vnone := by
  rw [to_dict_eq self hnodup, dlookup_map_columns _ self.table.columns hnodup c hc, hmiss]
  rfl

/-- Claim C10 witness: the `"name"` column has no attribute on `sparse`
and is serialized as `None`. -/
theorem to_dict_missing_attribute_none_witness :
    dlookup "name" (Model.to_dict sparse) = some Value.vnone :=
  to_dict_missing_attribute_none sparse ⟨"name", false, false⟩ (by decide) (by decide)
    (by decide)

end Sandman2
